import Mathlib

/-!
Verification of the time-in-translation extraction core.

This file gives a shallow embedding of the two core subsystems of the
repository and proves the frozen claims about them:

* the present-perfect construction detector of dpc.py
  (PerfectExtractor.check_present_perfect and is_lexically_bound),
* the construction model of extractor/models.py (PresentPerfect),
* the alignment resolver of corpora/europarl/extractor.py
  (EuroparlExtractor.get_translated_lines, parse_alignment_trees and
  average_alignment_certainty).

Tokens are modelled by their three attributes read by the detector
(text, lemma and the ana tag); alignment links by the parsed Alignment
records (sources, targets and the raw certainty attribute).
-/

/-- A morphosyntactic token as the detector reads it from the tagged tree:
surface text, lemma attribute (named lem since lemma is a keyword) and the
ana (tag) attribute. -/
structure Token where
  text : String
  lem : String
  ana : String
deriving DecidableEq, Repr

/-- The per-language configuration read by PerfectExtractor from dpc.cfg:
the perfect tag, the ppc boolean, the ppc lemma, the stop tags (already
split on commas), the lexical_bound value (the empty string models a
missing binding, as Python tests the value for truthiness) and the
aux_be_list lexicon read from the language file. -/
structure Config where
  perfect_tag : String
  ppc : Bool
  ppc_lemma : String
  stop_tags : List String
  lexical_bound : String
  aux_be_list : List String
deriving DecidableEq, Repr

/-- The characters of the Python string.punctuation constant:
the ASCII codes 33 to 47, 58 to 64, 91 to 96 and 123 to 126, in order. -/
def pythonPunctuation : List Char :=
  (List.range 127).filterMap (fun n =>
    if (33 ≤ n && n ≤ 47) || (58 ≤ n && n ≤ 64) ||
       (91 ≤ n && n ≤ 96) || (123 ≤ n && n ≤ 126)
    then some (Char.ofNat n) else none)

/-- Models the Python test `sibling.text in string.punctuation`: the in
operator on strings is substring containment. -/
def inPunctuation (s : String) : Bool :=
  decide (s.toList <:+: pythonPunctuation)

/-- Models `sibling.get(ana).startswith(stop_tags)` with a tuple argument:
true when the tag starts with any of the stop tags.  The prefix test is
done on the character lists so that it evaluates by kernel reduction. -/
def startsWithAnyStop (ana : String) (stop_tags : List String) : Bool :=
  stop_tags.any (fun p => p.toList.isPrefixOf ana.toList)

/-- The stopping test of the sibling walk in check_present_perfect:
the sibling text is punctuation, or its tag starts with a stop tag. -/
def stopCond (cfg : Config) (t : Token) : Bool :=
  inPunctuation t.text || startsWithAnyStop t.ana cfg.stop_tags

/-- PerfectExtractor.is_lexically_bound from dpc.py: if lexical bounds do
not exist or the auxiliary verb is unbound, return true; else check
whether the perfect is in the list of bound verbs. -/
def is_lexically_bound (cfg : Config) (aux_verb perfect : Token) : Bool :=
  let aux_be := cfg.lexical_bound
  if aux_be == "" || aux_verb.lem != aux_be then true
  else cfg.aux_be_list.contains perfect.lem

/-- The sibling loop of PerfectExtractor.check_present_perfect, producing
the parts of the construction that come from the siblings (the caller
prepends the element itself).  The recursive continuous-aspect call
`check_present_perfect(sibling, False)` of the source is inlined here:
with check_ppc = False the effective flag `False and cfg.ppc` is False,
so the inner call is `walk` on the remaining siblings with the sibling as
the new auxiliary, its result prefixed with the sibling entry; extending
with all-but-the-first elements of that construction therefore appends
exactly the inner `walk` result. -/
def walk (cfg : Config) (aux : Token) (cp : Bool) :
    List Token → Option (List (String × Bool))
  | [] => none
  | sibling :: rest =>
    if sibling.ana = cfg.perfect_tag then
      if is_lexically_bound cfg aux sibling then
        if cp && (sibling.lem == cfg.ppc_lemma) then
          match walk cfg sibling false rest with
          | some t => some ((sibling.text, true) :: t)
          | none => some [(sibling.text, true)]
        else some [(sibling.text, true)]
      else none
    else if stopCond cfg sibling then none
    else
      match walk cfg aux cp rest with
      | some t => some ((sibling.text, false) :: t)
      | none => none

/-- PerfectExtractor.check_present_perfect from dpc.py: the construction
starts with the element itself as a verb part; the effective continuous
flag is `check_ppc and config ppc`; the sibling walk either completes the
construction or fails, in which case None is returned. -/
def check_present_perfect (cfg : Config) (element : Token) (check_ppc : Bool)
    (siblings : List Token) : Option (List (String × Bool)) :=
  match walk cfg element (check_ppc && cfg.ppc) siblings with
  | some t => some ((element.text, true) :: t)
  | none => none

/-- The inlining of the recursive call is faithful: a recursive
check_present_perfect with check_ppc = False is exactly the inner walk
with the entry for the new auxiliary prepended. -/
theorem check_present_perfect_false (cfg : Config) (element : Token)
    (siblings : List Token) :
    check_present_perfect cfg element false siblings =
      match walk cfg element false siblings with
      | some t => some ((element.text, true) :: t)
      | none => none := by
  simp [check_present_perfect]

/-- Sanity evaluation of the spec scenario: trigger has followed by the
non-construction sibling always and the construction-tagged sibling
loved yields the three-part construction with one word between. -/
theorem detector_scenario_simple :
    check_present_perfect
      ⟨"VBN", false, "", ["PUNC"], "", []⟩
      ⟨"has", "have", "VBZ"⟩ true
      [⟨"always", "always", "ADV"⟩, ⟨"loved", "love", "VBN"⟩] =
      some [("has", true), ("always", false), ("loved", true)] := by
  decide

/-- Sanity evaluation of the continuous-aspect recursion: the nested
construction found from the continuous auxiliary extends the outer one
with all but its first part. -/
theorem detector_scenario_continuous :
    check_present_perfect
      ⟨"VBN", true, "be", ["PUNC"], "", []⟩
      ⟨"has", "have", "VBZ"⟩ true
      [⟨"been", "be", "VBN"⟩, ⟨"created", "create", "VBN"⟩] =
      some [("has", true), ("been", true), ("created", true)] := by
  decide

/-- Any part of a walk result that starts before a stop sibling whose tag
is not the perfect tag takes its text from a sibling strictly before that
stop sibling. -/
theorem walk_stop_bound (cfg : Config) (sk : Token)
    (hstop : stopCond cfg sk = true) (hperf : sk.ana ≠ cfg.perfect_tag) :
    ∀ (pre : List Token) (aux : Token) (cp : Bool) (post : List Token)
      (t : List (String × Bool)),
      walk cfg aux cp (pre ++ sk :: post) = some t →
      ∀ p ∈ t, p.1 ∈ pre.map Token.text := by
  intro pre
  induction pre with
  | nil =>
      intro aux cp post t h
      simp [walk, hperf, hstop] at h
  | cons s pre ih =>
      intro aux cp post t h
      simp only [List.cons_append, walk, List.append_eq] at h
      by_cases hp : s.ana = cfg.perfect_tag
      · rw [if_pos hp] at h
        by_cases hb : is_lexically_bound cfg aux s = true
        · rw [if_pos hb] at h
          by_cases hc : (cp && (s.lem == cfg.ppc_lemma)) = true
          · rw [if_pos hc] at h
            cases hw : walk cfg s false (pre ++ sk :: post) with
            | none =>
                rw [hw] at h
                simp only [Option.some.injEq] at h
                subst h
                intro p hp2
                simp only [List.mem_singleton] at hp2
                subst hp2
                simp
            | some t2 =>
                rw [hw] at h
                simp only [Option.some.injEq] at h
                subst h
                intro p hp2
                rcases List.mem_cons.mp hp2 with h1 | h2
                · subst h1; simp
                · simp only [List.map_cons, List.mem_cons]
                  right
                  exact ih s false post t2 hw p h2
          · rw [if_neg hc] at h
            simp only [Option.some.injEq] at h
            subst h
            intro p hp2
            simp only [List.mem_singleton] at hp2
            subst hp2
            simp
        · rw [if_neg hb] at h
          simp at h
      · rw [if_neg hp] at h
        by_cases hs : stopCond cfg s = true
        · rw [if_pos hs] at h
          simp at h
        · rw [if_neg hs] at h
          cases hw : walk cfg aux cp (pre ++ sk :: post) with
          | none => rw [hw] at h; simp at h
          | some t2 =>
              rw [hw] at h
              simp only [Option.some.injEq] at h
              subst h
              intro p hp2
              rcases List.mem_cons.mp hp2 with h1 | h2
              · subst h1; simp
              · simp only [List.map_cons, List.mem_cons]
                right
                exact ih aux cp post t2 hw p h2

/-- Claim C1 (amended): if some forward sibling is punctuation or
stop-tagged and its tag is not the construction (perfect) tag, then every
entry of a returned construction is either the trigger itself or takes
its text from a sibling strictly before that stop sibling; in particular
no entry, including those added by the recursive continuous-aspect
extension, originates after it. -/
theorem c1_stop_boundary (cfg : Config) (element : Token) (pre : List Token)
    (sk : Token) (post : List Token)
    (hstop : stopCond cfg sk = true) (hperf : sk.ana ≠ cfg.perfect_tag)
    (pp : List (String × Bool))
    (h : check_present_perfect cfg element true (pre ++ sk :: post) = some pp) :
    ∀ p ∈ pp, p.1 = element.text ∨ p.1 ∈ pre.map Token.text := by
  simp only [check_present_perfect] at h
  cases hw : walk cfg element (true && cfg.ppc) (pre ++ sk :: post) with
  | none => rw [hw] at h; simp at h
  | some t =>
      rw [hw] at h
      simp only [Option.some.injEq] at h
      subst h
      intro p hp2
      rcases List.mem_cons.mp hp2 with h1 | h2
      · left; rw [h1]
      · right; exact walk_stop_bound cfg sk hstop hperf pre element _ post t hw p h2

def c1cfg : Config := ⟨"VBN", false, "", ["PUNC"], "", []⟩

def c1trig : Token := ⟨"has", "have", "VBZ"⟩

def c1pre : List Token := [⟨"always", "always", "ADV"⟩, ⟨"loved", "love", "VBN"⟩]

def c1stop : Token := ⟨".", ".", "PUNC"⟩

theorem c1_witness :
    check_present_perfect c1cfg c1trig true (c1pre ++ c1stop :: []) =
      some [("has", true), ("always", false), ("loved", true)] ∧
    (("always", false).1 = c1trig.text ∨
      ("always", false).1 ∈ c1pre.map Token.text) :=
  ⟨by decide,
   c1_stop_boundary c1cfg c1trig c1pre c1stop [] (by decide) (by decide)
     [("has", true), ("always", false), ("loved", true)] (by decide)
     ("always", false) (by decide)⟩

def c1xcfg : Config := ⟨"VBN", true, "be", ["V"], "", []⟩

def c1xtrig : Token := ⟨"has", "have", "VBZ"⟩

def c1xs0 : Token := ⟨"been", "be", "VBN"⟩

def c1xs1 : Token := ⟨"done", "do", "VBN"⟩

/-- Counterexample to claim C1 as stated: sibling 0 is stop-tagged (its
tag VBN starts with the configured stop tag V), yet because its tag is
also the perfect tag the walk accepts it, and the recursive
continuous-aspect extension then appends an entry taken from sibling 1,
an index strictly greater than 0: that entry is neither the trigger text
nor the text of any sibling at index at most 0. -/
theorem c1_counterexample :
    check_present_perfect c1xcfg c1xtrig true [c1xs0, c1xs1] =
      some [("has", true), ("been", true), ("done", true)] ∧
    stopCond c1xcfg c1xs0 = true ∧
    ("done", true) ∈ [(("has" : String), true), ("been", true), ("done", true)] ∧
    ¬(("done" : String) = c1xtrig.text ∨
      ("done" : String) ∈ [c1xs0].map Token.text) := by
  decide

/-- If the first perfect-tagged sibling fails the lexical-binding check,
the whole walk returns none, whatever happened before it. -/
theorem walk_first_perfect_none (cfg : Config) (sj : Token)
    (hperf : sj.ana = cfg.perfect_tag) :
    ∀ (pre : List Token) (aux : Token) (cp : Bool) (post : List Token),
      (∀ x ∈ pre, x.ana ≠ cfg.perfect_tag) →
      is_lexically_bound cfg aux sj = false →
      walk cfg aux cp (pre ++ sj :: post) = none := by
  intro pre
  induction pre with
  | nil =>
      intro aux cp post _ hb
      simp [walk, hperf, hb]
  | cons s pre ih =>
      intro aux cp post hpre hb
      have hs : s.ana ≠ cfg.perfect_tag := hpre s (List.mem_cons_self s pre)
      simp only [List.cons_append, walk, List.append_eq]
      rw [if_neg hs]
      by_cases hstop : stopCond cfg s = true
      · rw [if_pos hstop]
      · rw [if_neg hstop,
          ih aux cp post (fun x hx => hpre x (List.mem_cons_of_mem s hx)) hb]

/-- If no sibling before the first perfect-tagged sibling is a stop and
the binding check passes, the walk succeeds and its result contains the
perfect-tagged sibling as a verb part. -/
theorem walk_first_perfect_some (cfg : Config) (sj : Token)
    (hperf : sj.ana = cfg.perfect_tag) :
    ∀ (pre : List Token) (aux : Token) (cp : Bool) (post : List Token),
      (∀ x ∈ pre, x.ana ≠ cfg.perfect_tag ∧ stopCond cfg x = false) →
      is_lexically_bound cfg aux sj = true →
      ∃ t, walk cfg aux cp (pre ++ sj :: post) = some t ∧ (sj.text, true) ∈ t := by
  intro pre
  induction pre with
  | nil =>
      intro aux cp post _ hb
      by_cases hc : (cp && (sj.lem == cfg.ppc_lemma)) = true
      · cases hw : walk cfg sj false post with
        | none =>
            exact ⟨[(sj.text, true)], by simp [walk, hperf, hb, hc, hw], by simp⟩
        | some t2 =>
            exact ⟨(sj.text, true) :: t2, by simp [walk, hperf, hb, hc, hw], by simp⟩
      · exact ⟨[(sj.text, true)], by simp [walk, hperf, hb, hc], by simp⟩
  | cons s pre ih =>
      intro aux cp post hpre hb
      obtain ⟨hsp, hss⟩ := hpre s (List.mem_cons_self s pre)
      obtain ⟨t, hw, hm⟩ :=
        ih aux cp post (fun x hx => hpre x (List.mem_cons_of_mem s hx)) hb
      refine ⟨(s.text, false) :: t, ?_, List.mem_cons_of_mem _ hm⟩
      simp [walk, hsp, hss, hw]

/-- Claim C2: for a trigger whose auxiliary lemma has an entry in the
lexical-binding table (the configured bound auxiliary with its
aux_be_list), detection returns not-found whenever the first
construction-tagged sibling carries a lemma outside the allowed set;
it returns a construction containing that sibling when the lemma is
allowed and no earlier stop condition fired; and an auxiliary with no
binding entry is never rejected on lexical-binding grounds. -/
theorem c2_lexical_binding (cfg : Config) (element : Token) (pre : List Token)
    (sj : Token) (post : List Token) (cp : Bool)
    (hbound : cfg.lexical_bound ≠ "")
    (hlem : element.lem = cfg.lexical_bound)
    (hperf : sj.ana = cfg.perfect_tag)
    (hfirst : ∀ x ∈ pre, x.ana ≠ cfg.perfect_tag) :
    (sj.lem ∉ cfg.aux_be_list →
      check_present_perfect cfg element cp (pre ++ sj :: post) = none) ∧
    ((∀ x ∈ pre, stopCond cfg x = false) → sj.lem ∈ cfg.aux_be_list →
      ∃ pp, check_present_perfect cfg element cp (pre ++ sj :: post) = some pp ∧
        (sj.text, true) ∈ pp) ∧
    (∀ (cfg2 : Config) (aux s : Token),
      cfg2.lexical_bound = "" ∨ aux.lem ≠ cfg2.lexical_bound →
      is_lexically_bound cfg2 aux s = true) := by
  refine ⟨?_, ?_, ?_⟩
  · intro hnotin
    have hlb : is_lexically_bound cfg element sj = false := by
      simp [is_lexically_bound, hlem, hbound, hnotin]
    rw [check_present_perfect,
      walk_first_perfect_none cfg sj hperf pre element _ post hfirst hlb]
  · intro hnostop hin
    have hlb : is_lexically_bound cfg element sj = true := by
      simp [is_lexically_bound, hlem, hbound, hin]
    obtain ⟨t, hw, hm⟩ :=
      walk_first_perfect_some cfg sj hperf pre element (cp && cfg.ppc) post
        (fun x hx => ⟨hfirst x hx, hnostop x hx⟩) hlb
    exact ⟨(element.text, true) :: t, by rw [check_present_perfect, hw],
      List.mem_cons_of_mem _ hm⟩
  · intro cfg2 aux s h
    rcases h with h | h <;> simp [is_lexically_bound, h]

def c2cfg : Config := ⟨"VBN", false, "", [], "zijn", ["houden"]⟩

def c2aux : Token := ⟨"is", "zijn", "AUX"⟩

def c2bad : Token := ⟨"gelopen", "lopen", "VBN"⟩

theorem c2_witness :
    check_present_perfect c2cfg c2aux true ([] ++ c2bad :: []) = none :=
  (c2_lexical_binding c2cfg c2aux [] c2bad [] true (by decide) (by decide)
    (by decide) (by decide)).1 (by decide)

/-- A Word of extractor/models.py: a word, its lemma, and a designation
whether this is a verb. -/
structure Word where
  word : String
  lem : String
  is_verb : Bool
deriving DecidableEq, Repr

/-- A PresentPerfect of extractor/models.py: a list of Words. -/
structure PresentPerfect where
  words : List Word
deriving DecidableEq, Repr

/-- PresentPerfect.add_word: adds a word to the present perfect. -/
def PresentPerfect.add_word (pp : PresentPerfect) (word lem : String)
    (is_verb : Bool) : PresentPerfect :=
  ⟨pp.words ++ [⟨word, lem, is_verb⟩]⟩

/-- The PresentPerfect constructor: a present perfect is initiated by an
auxiliary verb, added with is_verb = true to the empty word list. -/
def PresentPerfect.init (aux_verb aux_lemma : String) : PresentPerfect :=
  PresentPerfect.add_word ⟨[]⟩ aux_verb aux_lemma true

/-- PresentPerfect.extend: extends a present perfect with another one,
adding every word of the other except the one at index 0. -/
def PresentPerfect.extend (pp other : PresentPerfect) : PresentPerfect :=
  (other.words.drop 1).foldl
    (fun acc w => acc.add_word w.word w.lem w.is_verb) pp

/-- PresentPerfect.words_between: the number of non-verbs in a present
perfect construction. -/
def PresentPerfect.words_between (pp : PresentPerfect) : Nat :=
  (pp.words.filter (fun w => !w.is_verb)).length

/-- Folding add_word over a word list appends exactly that list. -/
theorem foldl_add_word (ws : List Word) :
    ∀ pp : PresentPerfect,
      (ws.foldl (fun acc w => acc.add_word w.word w.lem w.is_verb) pp).words =
        pp.words ++ ws := by
  induction ws with
  | nil => intro pp; simp
  | cons w ws ih =>
      intro pp
      rw [List.foldl_cons, ih]
      simp [PresentPerfect.add_word]

/-- Extending appends all but the first word of the other construction. -/
theorem extend_words (pp other : PresentPerfect) :
    (pp.extend other).words = pp.words ++ other.words.drop 1 :=
  foldl_add_word (other.words.drop 1) pp

/-- Claim C7: extending construction A with construction B makes the word
sequence of A equal to its previous sequence followed by all elements of
the sequence of B except the first, and words_between then counts exactly
the non-verb entries of that combined sequence. -/
theorem c7_extend_append (A B : PresentPerfect) :
    (A.extend B).words = A.words ++ B.words.drop 1 ∧
    (A.extend B).words_between =
      (A.words ++ B.words.drop 1).countP (fun w => w.is_verb = false) := by
  refine ⟨extend_words A B, ?_⟩
  rw [PresentPerfect.words_between, extend_words, ← List.countP_eq_length_filter]
  congr 1
  funext w
  cases w.is_verb <;> simp

/-- An operation on a PresentPerfect after its creation: either an
add_word call or an extend call. -/
inductive PPOp where
  | addw (word lem : String) (isv : Bool)
  | extw (other : PresentPerfect)

/-- Applies one operation to a PresentPerfect. -/
def applyOp (pp : PresentPerfect) : PPOp → PresentPerfect
  | PPOp.addw w l v => pp.add_word w l v
  | PPOp.extw o => pp.extend o

/-- Applies a sequence of operations to a PresentPerfect. -/
def applyOps (pp : PresentPerfect) (ops : List PPOp) : PresentPerfect :=
  ops.foldl applyOp pp

/-- Every operation only appends words. -/
theorem applyOp_words (pp : PresentPerfect) (op : PPOp) :
    ∃ s, (applyOp pp op).words = pp.words ++ s := by
  cases op with
  | addw w l v => exact ⟨[⟨w, l, v⟩], rfl⟩
  | extw o => exact ⟨o.words.drop 1, extend_words pp o⟩

/-- A sequence of operations only appends words. -/
theorem applyOps_words (ops : List PPOp) :
    ∀ pp : PresentPerfect, ∃ s, (applyOps pp ops).words = pp.words ++ s := by
  induction ops with
  | nil => intro pp; exact ⟨[], by simp [applyOps]⟩
  | cons op ops ih =>
      intro pp
      obtain ⟨s1, h1⟩ := applyOp_words pp op
      obtain ⟨s2, h2⟩ := ih (applyOp pp op)
      refine ⟨s1 ++ s2, ?_⟩
      rw [applyOps, List.foldl_cons, ← applyOps, h2, h1, List.append_assoc]

/-- Claim C8: a PresentPerfect created from a trigger auxiliary keeps,
after every sequence of add_word and extend operations, a non-empty word
sequence whose first element is the triggering auxiliary with
is_verb = true; hence some element is a verb and the sequence is
non-empty. -/
theorem c8_first_word_invariant (aux_verb aux_lemma : String)
    (ops : List PPOp) :
    ∃ rest, (applyOps (PresentPerfect.init aux_verb aux_lemma) ops).words =
      Word.mk aux_verb aux_lemma true :: rest := by
  obtain ⟨s, hs⟩ := applyOps_words ops (PresentPerfect.init aux_verb aux_lemma)
  exact ⟨s, by rw [hs]; rfl⟩

/-- An alignment link as built in parse_alignment_trees (the Alignment
model class of the source): the two segment-id groups split from the
xtargets attribute and the raw certainty attribute (absent modelled as
none).  Named AlignmentLink here because Mathlib already declares
Alignment. -/
structure AlignmentLink where
  sources : List String
  targets : List String
  certainty : Option String
deriving DecidableEq, Repr

/-- Code-point lexicographic comparison of character lists: the order
Python uses to compare strings.  Defined structurally so that it
evaluates by kernel reduction. -/
def charListLt : List Char → List Char → Bool
  | [], [] => false
  | [], _ :: _ => true
  | _ :: _, [] => false
  | x :: xs, y :: ys =>
    if x.toNat < y.toNat then true
    else if y.toNat < x.toNat then false
    else charListLt xs ys

/-- Python string comparison, on the code points of the two strings. -/
def pyStrLt (a b : String) : Bool :=
  charListLt a.toList b.toList

/-- Python sorted on a two-element list: swaps the pair exactly when the
second element is smaller. -/
def sort2 (a b : String) : String × String :=
  if pyStrLt b a then (b, a) else (a, b)

/-- The link scan of EuroparlExtractor.get_translated_lines: when the
query language sorts first, look for the segment in the sources and
return (sources, targets); otherwise look in the targets and return
(targets, sources); the first matching link wins, and no match yields
two empty groups and no certainty. -/
def findAligned (language_from sl0 segment_number : String) :
    List AlignmentLink → List String × List String × Option String
  | [] => ([], [], none)
  | alignment :: rest =>
    if sl0 = language_from then
      if segment_number ∈ alignment.sources then
        (alignment.sources, alignment.targets, alignment.certainty)
      else findAligned language_from sl0 segment_number rest
    else
      if segment_number ∈ alignment.targets then
        (alignment.targets, alignment.sources, alignment.certainty)
      else findAligned language_from sl0 segment_number rest

/-- EuroparlExtractor.get_translated_lines from
corpora/europarl/extractor.py, applied to the alignment list cached for
the target language: scans the links for the segment number on the group
picked by the canonical language order, then resets the translated lines
to the empty list when none of them is a non-empty string, and renders
the alignment descriptor from the two group lengths when translated
lines remain. -/
def get_translated_lines (alignments : List AlignmentLink)
    (language_from language_to segment_number : String) :
    List String × List String × String :=
  let sl := sort2 language_from language_to
  let found := findAligned language_from sl.1 segment_number alignments
  let from_lines := found.1
  let to_lines := found.2.1
  let to_lines := if to_lines.any (fun x => x != "") then to_lines else []
  let alignment_str :=
    if !to_lines.isEmpty then
      toString from_lines.length ++ " => " ++ toString to_lines.length
    else ""
  (from_lines, to_lines, alignment_str)

/-- The group of a link that a query treats as its from side: the link
sources exactly when the from language sorts first. -/
def fromSide (language_from language_to : String) (a : AlignmentLink) :
    List String :=
  if (sort2 language_from language_to).1 = language_from then a.sources
  else a.targets

/-- The group of a link that a query treats as its to side. -/
def toSide (language_from language_to : String) (a : AlignmentLink) :
    List String :=
  if (sort2 language_from language_to).1 = language_from then a.targets
  else a.sources

/-- Sanity evaluations of the resolver on the spec scenarios, in both
language directions. -/
theorem resolver_scenarios :
    get_translated_lines [⟨["1"], ["2", "3"], some "0.9"⟩] "en" "nl" "1" =
      (["1"], ["2", "3"], "1 => 2") ∧
    get_translated_lines [⟨["1"], ["2", "3"], some "0.9"⟩] "nl" "en" "2" =
      (["2", "3"], ["1"], "2 => 1") := by decide

/-- A link whose from side contains the segment is taken by the scan. -/
theorem findAligned_cons_hit (A B seg : String) (a : AlignmentLink)
    (als : List AlignmentLink) (hmem : seg ∈ fromSide A B a) :
    findAligned A (sort2 A B).1 seg (a :: als) =
      (fromSide A B a, toSide A B a, a.certainty) := by
  by_cases hc : (sort2 A B).1 = A
  · have h2 : seg ∈ a.sources := by simpa [fromSide, hc] using hmem
    simp [findAligned, hc, h2, fromSide, toSide]
  · have h2 : seg ∈ a.targets := by simpa [fromSide, hc] using hmem
    simp [findAligned, hc, h2, fromSide, toSide]

/-- A link whose from side does not contain the segment is skipped. -/
theorem findAligned_cons_skip (A B seg : String) (a : AlignmentLink)
    (als : List AlignmentLink) (hmem : seg ∉ fromSide A B a) :
    findAligned A (sort2 A B).1 seg (a :: als) =
      findAligned A (sort2 A B).1 seg als := by
  by_cases hc : (sort2 A B).1 = A
  · have h2 : seg ∉ a.sources := by simpa [fromSide, hc] using hmem
    simp [findAligned, hc, h2]
  · have h2 : seg ∉ a.targets := by simpa [fromSide, hc] using hmem
    simp [findAligned, hc, h2]

/-- The scan returns the first link whose from side holds the segment. -/
theorem findAligned_first (A B seg : String) (L : AlignmentLink)
    (post : List AlignmentLink) :
    ∀ pre : List AlignmentLink, (∀ a ∈ pre, seg ∉ fromSide A B a) →
      seg ∈ fromSide A B L →
      findAligned A (sort2 A B).1 seg (pre ++ L :: post) =
        (fromSide A B L, toSide A B L, L.certainty) := by
  intro pre
  induction pre with
  | nil => intro _ hmem; exact findAligned_cons_hit A B seg L post hmem
  | cons a pre ih =>
      intro hpre hmem
      rw [List.cons_append,
        findAligned_cons_skip A B seg a _ (hpre a (List.mem_cons_self a pre)),
        ih (fun x hx => hpre x (List.mem_cons_of_mem a hx)) hmem]

/-- When no link matches, the scan returns two empty groups. -/
theorem findAligned_none (A B seg : String) :
    ∀ als : List AlignmentLink, (∀ a ∈ als, seg ∉ fromSide A B a) →
      findAligned A (sort2 A B).1 seg als = ([], [], none) := by
  intro als
  induction als with
  | nil => intro _; rfl
  | cons a als ih =>
      intro h
      rw [findAligned_cons_skip A B seg a als (h a (List.mem_cons_self a als)),
        ih (fun x hx => h x (List.mem_cons_of_mem a hx))]

/-- The scan result is either the empty triple or comes from a member
link whose from side holds the segment. -/
theorem findAligned_cases (A B seg : String) :
    ∀ als : List AlignmentLink,
      findAligned A (sort2 A B).1 seg als = ([], [], none) ∨
      ∃ a ∈ als, seg ∈ fromSide A B a ∧
        findAligned A (sort2 A B).1 seg als =
          (fromSide A B a, toSide A B a, a.certainty) := by
  intro als
  induction als with
  | nil => left; rfl
  | cons a als ih =>
      by_cases hmem : seg ∈ fromSide A B a
      · right
        exact ⟨a, List.mem_cons_self a als, hmem,
          findAligned_cons_hit A B seg a als hmem⟩
      · rw [findAligned_cons_skip A B seg a als hmem]
        rcases ih with h | ⟨x, hx, hxm, heq⟩
        · left; exact h
        · right; exact ⟨x, List.mem_cons_of_mem a hx, hxm, heq⟩

/-- If some member link has the segment on its from side, the scan
settles on such a member link. -/
theorem findAligned_found (A B seg : String) :
    ∀ als : List AlignmentLink, (∃ a ∈ als, seg ∈ fromSide A B a) →
      ∃ a ∈ als, seg ∈ fromSide A B a ∧
        findAligned A (sort2 A B).1 seg als =
          (fromSide A B a, toSide A B a, a.certainty) := by
  intro als
  induction als with
  | nil => rintro ⟨a, ha, _⟩; exact absurd ha (List.not_mem_nil a)
  | cons a als ih =>
      intro hex
      by_cases hmem : seg ∈ fromSide A B a
      · exact ⟨a, List.mem_cons_self a als, hmem,
          findAligned_cons_hit A B seg a als hmem⟩
      · have hex2 : ∃ x ∈ als, seg ∈ fromSide A B x := by
          rcases hex with ⟨x, hx, hxm⟩
          rcases List.mem_cons.mp hx with rfl | hx2
          · exact absurd hxm hmem
          · exact ⟨x, hx2, hxm⟩
        obtain ⟨x, hx, hxm, heq⟩ := ih hex2
        exact ⟨x, List.mem_cons_of_mem a hx, hxm,
          (findAligned_cons_skip A B seg a als hmem).trans heq⟩

/-- Claim C3 (amended): when some link holds the segment on its from side
and the first such link has a to-side group with at least one non-empty
segment id, resolution returns the groups of that first link, oriented by
the lexicographic order of the two language names, together with the
descriptor built from the two group lengths.  (Without the non-empty
requirement the to group is reset to the empty list, see the
counterexample and claim C10.) -/
theorem c3_first_link_resolution (A B s : String) (pre : List AlignmentLink)
    (L : AlignmentLink) (post : List AlignmentLink)
    (hpre : ∀ a ∈ pre, s ∉ fromSide A B a) (hmem : s ∈ fromSide A B L)
    (hany : ∃ x ∈ toSide A B L, x ≠ "") :
    get_translated_lines (pre ++ L :: post) A B s =
      (fromSide A B L, toSide A B L,
        toString (fromSide A B L).length ++ " => " ++
          toString (toSide A B L).length) := by
  have hfind := findAligned_first A B s L post pre hpre hmem
  have hany2 : (toSide A B L).any (fun x => x != "") = true := by
    rcases hany with ⟨x, hx, hne⟩
    exact List.any_eq_true.mpr ⟨x, hx, by simpa using hne⟩
  have hne : (toSide A B L).isEmpty = false := by
    rcases hany with ⟨x, hx, _⟩
    have := List.ne_nil_of_mem hx
    simpa [List.isEmpty_iff] using this
  simp [get_translated_lines, hfind, hany2, hne]

def c3link : AlignmentLink := ⟨["1"], ["2", "3"], some "0.9"⟩

theorem c3_witness :
    get_translated_lines [c3link] "en" "nl" "1" = (["1"], ["2", "3"], "1 => 2") :=
  (c3_first_link_resolution "en" "nl" "1" [] c3link []
    (by decide) (by decide) ⟨"2", by decide, by decide⟩).trans (by decide)

def c3xlink : AlignmentLink := ⟨["1"], [""], none⟩

/-- Counterexample to claim C3 as stated: for a matching link whose
to-side group holds only the empty segment id, resolution does not return
the groups of the link and the length descriptor; the to group is reset
to the empty list and the descriptor to the empty string. -/
theorem c3_counterexample :
    get_translated_lines [c3xlink] "en" "nl" "1" = (["1"], [], "") ∧
    ¬(get_translated_lines [c3xlink] "en" "nl" "1" =
        (["1"], [""], "1 => 1")) := by decide

/-- Claim C4: a segment contained in no link's from-side group resolves
to two empty groups and an empty descriptor. -/
theorem c4_no_match (als : List AlignmentLink) (A B s : String)
    (h : ∀ a ∈ als, s ∉ fromSide A B a) :
    get_translated_lines als A B s = ([], [], "") := by
  have hfind := findAligned_none A B s als h
  simp [get_translated_lines, hfind]

theorem c4_witness :
    get_translated_lines [⟨["1"], ["2", "3"], some "0.9"⟩] "en" "nl" "99" =
      ([], [], "") :=
  c4_no_match [⟨["1"], ["2", "3"], some "0.9"⟩] "en" "nl" "99" (by decide)

/-- Claim C10: when the first matching link has a to-side group whose
entries are all empty (falsy) segment ids, resolution reports no
translation: empty to group and empty descriptor, while the returned
from group is the non-empty group of the link. -/
theorem c10_falsy_to_group (A B s : String) (pre : List AlignmentLink)
    (L : AlignmentLink) (post : List AlignmentLink)
    (hpre : ∀ a ∈ pre, s ∉ fromSide A B a) (hmem : s ∈ fromSide A B L)
    (hfalsy : ∀ x ∈ toSide A B L, x = "") :
    get_translated_lines (pre ++ L :: post) A B s =
      (fromSide A B L, [], "") ∧ fromSide A B L ≠ [] := by
  have hfind := findAligned_first A B s L post pre hpre hmem
  have hany : (toSide A B L).any (fun x => x != "") = false := by
    rw [List.any_eq_false]
    intro x hx
    simpa using hfalsy x hx
  refine ⟨?_, List.ne_nil_of_mem hmem⟩
  simp [get_translated_lines, hfind, hany]

theorem c10_witness :
    get_translated_lines [⟨["1"], [""], none⟩] "en" "nl" "1" =
      (["1"], [], "") :=
  ((c10_falsy_to_group "en" "nl" "1" [] ⟨["1"], [""], none⟩ []
    (by decide) (by decide) (by decide)).1).trans (by decide)

/-- Characters with equal code points are equal. -/
theorem char_eq_of_toNat_eq (a b : Char) (h : a.toNat = b.toNat) : a = b := by
  simpa [Char.ext_iff, UInt32.ext_iff] using h

/-- The code-point order on character lists is asymmetric. -/
theorem charListLt_asymm :
    ∀ xs ys : List Char, charListLt xs ys = true → charListLt ys xs = false := by
  intro xs
  induction xs with
  | nil =>
      intro ys h
      cases ys with
      | nil => simp [charListLt] at h
      | cons y ys => simp [charListLt]
  | cons x xs ih =>
      intro ys h
      cases ys with
      | nil => simp [charListLt] at h
      | cons y ys =>
          simp only [charListLt] at h ⊢
          by_cases h1 : x.toNat < y.toNat
          · have h2 : ¬ y.toNat < x.toNat := by omega
            simp [h1, h2]
          · by_cases h2 : y.toNat < x.toNat
            · simp [h1, h2] at h
            · simp only [h1, h2, if_false] at h ⊢
              exact ih ys h

/-- Two character lists that are mutually not below each other are
equal. -/
theorem charListLt_antisymm :
    ∀ xs ys : List Char, charListLt xs ys = false → charListLt ys xs = false →
      xs = ys := by
  intro xs
  induction xs with
  | nil =>
      intro ys h1 _
      cases ys with
      | nil => rfl
      | cons y ys => simp [charListLt] at h1
  | cons x xs ih =>
      intro ys h1 h2
      cases ys with
      | nil => simp [charListLt] at h2
      | cons y ys =>
          simp only [charListLt] at h1 h2
          by_cases hxy : x.toNat < y.toNat
          · simp [hxy] at h1
          · by_cases hyx : y.toNat < x.toNat
            · simp [hyx] at h2
            · have hx : x.toNat = y.toNat := by omega
              have hchar : x = y := char_eq_of_toNat_eq x y hx
              simp only [hxy, hyx, if_false] at h1 h2
              rw [hchar, ih ys h1 h2]

/-- Distinct strings compare strictly in one direction. -/
theorem pyStrLt_total (A B : String) (hAB : A ≠ B) :
    pyStrLt A B = true ∨ pyStrLt B A = true := by
  by_cases h1 : pyStrLt A B = true
  · left; exact h1
  · by_cases h2 : pyStrLt B A = true
    · right; exact h2
    · exfalso
      apply hAB
      have := charListLt_antisymm A.toList B.toList
        (by simpa [pyStrLt] using h1) (by simpa [pyStrLt] using h2)
      exact String.toList_inj.mp this

/-- Sorting a two-element list does not depend on the argument order when
the elements differ. -/
theorem sort2_comm (A B : String) (hAB : A ≠ B) : sort2 A B = sort2 B A := by
  rcases pyStrLt_total A B hAB with h | h
  · have h2 : pyStrLt B A = false := by
      simpa [pyStrLt] using charListLt_asymm A.toList B.toList (by simpa [pyStrLt] using h)
    simp [sort2, h, h2]
  · have h2 : pyStrLt A B = false := by
      simpa [pyStrLt] using charListLt_asymm B.toList A.toList (by simpa [pyStrLt] using h)
    simp [sort2, h, h2]

/-- The first component of a sorted language pair is one of the two. -/
theorem sort2_fst (A B : String) : (sort2 A B).1 = A ∨ (sort2 A B).1 = B := by
  by_cases h : pyStrLt B A = true
  · right; simp [sort2, h]
  · left; simp [sort2, h]

/-- Swapping the query direction swaps the two sides of every link. -/
theorem side_swap (A B : String) (hAB : A ≠ B) (a : AlignmentLink) :
    fromSide B A a = toSide A B a ∧ toSide B A a = fromSide A B a := by
  have hcomm : sort2 B A = sort2 A B := sort2_comm B A (fun h => hAB h.symm)
  have hBA : B ≠ A := fun h => hAB h.symm
  unfold fromSide toSide
  rw [hcomm]
  by_cases hc : (sort2 A B).1 = A
  · have hc2 : ¬ (sort2 A B).1 = B := by rw [hc]; exact hAB
    simp [hc, hc2, hAB, hBA]
  · have hc2 : (sort2 A B).1 = B := (sort2_fst A B).resolve_left hc
    simp [hc, hc2, hAB, hBA]

/-- Claim C6 (amended): round-trip symmetry of alignment resolution over
one underlying link list, for distinct languages, a non-empty source
segment id, and a target id whose occurrences on the to side always come
with the source id on the from side (in particular when the first link
matching the target id in the reverse direction is the link found in the
forward direction): if the forward query returns t among its translated
lines, the reverse query for t returns s among its translated lines. -/
theorem c6_round_trip (als : List AlignmentLink) (A B s t : String)
    (hAB : A ≠ B) (hs : s ≠ "")
    (hcompat : ∀ a ∈ als, t ∈ toSide A B a → s ∈ fromSide A B a)
    (ht : t ∈ (get_translated_lines als A B s).2.1) :
    s ∈ (get_translated_lines als B A t).2.1 := by
  rcases findAligned_cases A B s als with hnone | ⟨a, ha, hsm, heq⟩
  · exfalso
    simp [get_translated_lines, hnone] at ht
  · have h21 : (get_translated_lines als A B s).2.1 =
        if (toSide A B a).any (fun x => x != "") then toSide A B a else [] := by
      simp [get_translated_lines, heq]
    rw [h21] at ht
    by_cases hany : (toSide A B a).any (fun x => x != "") = true
    · rw [if_pos hany] at ht
      have hexr : ∃ x ∈ als, t ∈ fromSide B A x :=
        ⟨a, ha, by rw [(side_swap A B hAB a).1]; exact ht⟩
      obtain ⟨x, hx, hxm, heqr⟩ := findAligned_found B A t als hexr
      have hsx : s ∈ toSide B A x := by
        rw [(side_swap A B hAB x).2]
        exact hcompat x hx (by rw [← (side_swap A B hAB x).1]; exact hxm)
      have hanyr : (toSide B A x).any (fun y => y != "") = true :=
        List.any_eq_true.mpr ⟨s, hsx, by simpa using hs⟩
      simp only [get_translated_lines, heqr, hanyr, if_true]
      exact hsx
    · rw [if_neg (by simpa using hany)] at ht
      exact absurd ht (List.not_mem_nil t)

def c6link : AlignmentLink := ⟨["1"], ["2", "3"], none⟩

theorem c6_witness :
    ("1" : String) ∈ (get_translated_lines [c6link] "nl" "en" "2").2.1 :=
  c6_round_trip [c6link] "en" "nl" "1" "2" (by decide) (by decide)
    (by decide) (by decide)

def c6x0 : AlignmentLink := ⟨["9"], ["2"], none⟩

def c6x1 : AlignmentLink := ⟨["1"], ["2", "3"], none⟩

/-- Counterexample to claim C6 as stated: with two links sharing the
target id 2, the forward query en to nl for segment 1 matches the second
link and returns to group [2, 3], but the reverse query nl to en for 2
matches the first link, whose to group [9] does not contain 1. -/
theorem c6_counterexample :
    get_translated_lines [c6x0, c6x1] "en" "nl" "1" =
      (["1"], ["2", "3"], "1 => 2") ∧
    ("2" : String) ∈ (["2", "3"] : List String) ∧
    get_translated_lines [c6x0, c6x1] "nl" "en" "2" =
      (["2"], ["9"], "1 => 1") ∧
    ("1" : String) ∉ (["9"] : List String) := by decide

/-- An ASCII decimal digit. -/
def isAsciiDigit (c : Char) : Bool :=
  48 ≤ c.toNat && c.toNat ≤ 57

/-- The natural number denoted by a list of decimal digits. -/
def digitsToNat (l : List Char) : Nat :=
  l.foldl (fun n c => 10 * n + (c.toNat - 48)) 0

/-- Syntactic part of decimal parsing: splits an unsigned decimal literal
into integer value, fraction value and fraction length, or fails. -/
def parseUnsignedParts (l : List Char) : Option (Nat × Nat × Nat) :=
  let intPart := l.takeWhile isAsciiDigit
  let rest := l.dropWhile isAsciiDigit
  match rest with
  | [] => if intPart.isEmpty then none else some (digitsToNat intPart, 0, 0)
  | c :: frac =>
    if c == '.' && frac.all isAsciiDigit && !(intPart.isEmpty && frac.isEmpty) then
      some (digitsToNat intPart, digitsToNat frac, frac.length)
    else none

/-- Sign handling of decimal parsing: the Boolean marks a negative
literal. -/
def pyFloatParts (s : String) : Option (Bool × Nat × Nat × Nat) :=
  match s.toList with
  | [] => none
  | c :: rest =>
    if c == '+' then (parseUnsignedParts rest).map (fun p => (false, p))
    else if c == '-' then (parseUnsignedParts rest).map (fun p => (true, p))
    else (parseUnsignedParts (c :: rest)).map (fun p => (false, p))

/-- Models the Python float builtin, an external collaborator of the
core, on plain decimal literals (optional sign, digits, optional decimal
point): returns the exact rational value, or none where float raises a
ValueError.  Scientific notation and the special values are not used by
the corpus certainties considered in the claims. -/
def pyFloat? (s : String) : Option ℚ :=
  (pyFloatParts s).map (fun p =>
    (if p.1 then -1 else 1) *
      ((p.2.1 : ℚ) + (p.2.2.1 : ℚ) / ((10 ^ p.2.2.2 : Nat) : ℚ)))

/-- The per-link value used by average_alignment_certainty:
`float(a.certainty) if a.certainty else 0`, where a falsy (absent or
empty) certainty contributes 0 and a present one goes through float,
whose failure is modelled as none. -/
def certaintyValue (a : AlignmentLink) : Option ℚ :=
  match a.certainty with
  | none => some 0
  | some s => if s = "" then some 0 else pyFloat? s

/-- The certainty sum of one language's alignments; none as soon as one
float conversion raises. -/
def sumCertainties : List AlignmentLink → Option ℚ
  | [] => some 0
  | a :: rest =>
    match certaintyValue a, sumCertainties rest with
    | some v, some s => some (v + s)
    | _, _ => none

/-- The running (certainties_sum, certainties_len) pair of
average_alignment_certainty over the per-language alignment lists; the
length counts every link, whatever its certainty. -/
def sumLenCertainties :
    List (String × List AlignmentLink) → Option (ℚ × Nat)
  | [] => some (0, 0)
  | p :: rest =>
    match sumCertainties p.2, sumLenCertainties rest with
    | some s, some q => some (s + q.1, p.2.length + q.2)
    | _, _ => none

/-- EuroparlExtractor.average_alignment_certainty from
corpora/europarl/extractor.py: sums `float(a.certainty) if a.certainty
else 0` over all alignments of all languages, divides by the number of
alignments, and returns 0 when there are none; a float ValueError
propagates as none. -/
def average_alignment_certainty
    (alignment_trees : List (String × List AlignmentLink)) : Option ℚ :=
  match sumLenCertainties alignment_trees with
  | none => none
  | some (s, n) => if n > 0 then some (s / (n : ℚ)) else some 0

/-- The sum of the known certainty values of one language's alignments,
counting unknown ones as 0. -/
def certaintySum : List AlignmentLink → ℚ
  | [] => 0
  | a :: rest => (certaintyValue a).getD 0 + certaintySum rest

/-- The certainty sum over all languages of an alignment-tree table. -/
def treesCertaintySum : List (String × List AlignmentLink) → ℚ
  | [] => 0
  | p :: rest => certaintySum p.2 + treesCertaintySum rest

/-- The total number of links over all languages of an alignment-tree
table. -/
def treesLinkCount : List (String × List AlignmentLink) → Nat
  | [] => 0
  | p :: rest => p.2.length + treesLinkCount rest

/-- When every certainty converts, the per-language sum is the plain
sum. -/
theorem sumCertainties_eq (als : List AlignmentLink)
    (h : ∀ a ∈ als, (certaintyValue a).isSome = true) :
    sumCertainties als = some (certaintySum als) := by
  induction als with
  | nil => rfl
  | cons a als ih =>
      obtain ⟨v, hv⟩ :=
        Option.isSome_iff_exists.mp (h a (List.mem_cons_self a als))
      have ih2 := ih (fun x hx => h x (List.mem_cons_of_mem a hx))
      simp [sumCertainties, certaintySum, hv, ih2]

/-- When every certainty converts, the scan accumulates the sum and the
total link count. -/
theorem sumLenCertainties_eq (trees : List (String × List AlignmentLink))
    (h : ∀ p ∈ trees, ∀ a ∈ p.2, (certaintyValue a).isSome = true) :
    sumLenCertainties trees =
      some (treesCertaintySum trees, treesLinkCount trees) := by
  induction trees with
  | nil => rfl
  | cons p trees ih =>
      have hp := sumCertainties_eq p.2 (h p (List.mem_cons_self p trees))
      have ih2 := ih (fun x hx => h x (List.mem_cons_of_mem p hx))
      simp [sumLenCertainties, treesCertaintySum, treesLinkCount, hp, ih2]

/-- Claim C5 (amended): when every present certainty parses, the mean
certainty is the sum of the known certainty values, with an unknown
certainty counted as 0 and still included in the denominator, divided by
the total number of links, and 0 when there are no links at all; in
particular over a single link with certainty 0.8 it returns 0.8, and
over an empty table it returns 0. -/
theorem c5_mean_certainty (trees : List (String × List AlignmentLink)) :
    ((∀ p ∈ trees, ∀ a ∈ p.2, (certaintyValue a).isSome = true) →
      average_alignment_certainty trees =
        some (if treesLinkCount trees = 0 then 0
              else treesCertaintySum trees / (treesLinkCount trees : ℚ))) ∧
    average_alignment_certainty [("nl", [⟨["1"], ["2"], some "0.8"⟩])] =
      some (4/5 : ℚ) ∧
    average_alignment_certainty [] = some 0 := by
  refine ⟨?_, ?_, rfl⟩
  · intro h
    rw [average_alignment_certainty, sumLenCertainties_eq trees h]
    rcases Nat.eq_zero_or_pos (treesLinkCount trees) with hz | hp
    · simp [hz]
    · simp [hp, Nat.pos_iff_ne_zero.mp hp]
  · have h8 : pyFloatParts "0.8" = some (false, 0, 8, 1) := by decide
    simp [average_alignment_certainty, sumLenCertainties, sumCertainties,
      certaintyValue, pyFloat?, h8]
    norm_num

theorem c5_witness :
    average_alignment_certainty [("nl", [⟨["1"], ["2", "3"], some "0.9"⟩])] =
      some (if treesLinkCount [("nl", [⟨["1"], ["2", "3"], some "0.9"⟩])] = 0
            then 0
            else treesCertaintySum [("nl", [⟨["1"], ["2", "3"], some "0.9"⟩])] /
              (treesLinkCount [("nl", [⟨["1"], ["2", "3"], some "0.9"⟩])] : ℚ)) :=
  (c5_mean_certainty [("nl", [⟨["1"], ["2", "3"], some "0.9"⟩])]).1 (by decide)

/-- Counterexample to claim C5 as stated: over one link with certainty
0.8 and one link with unknown certainty, the computed mean is 0.4, not
the mean 0.8 of the known values only: the unknown certainty is counted
as 0 in both the sum and the denominator instead of being excluded. -/
theorem c5_counterexample :
    average_alignment_certainty
      [("nl", [⟨["1"], ["2"], some "0.8"⟩, ⟨["3"], ["4"], none⟩])] =
      some (2/5 : ℚ) ∧
    (2/5 : ℚ) ≠ 4/5 := by
  constructor
  · have h8 : pyFloatParts "0.8" = some (false, 0, 8, 1) := by decide
    simp [average_alignment_certainty, sumLenCertainties, sumCertainties,
      certaintyValue, pyFloat?, h8]
    norm_num
  · norm_num

/-- The error raised for a malformed alignment record. -/
inductive FormatError where
  | emptyGroup
deriving DecidableEq, Repr

/-- Modelled from the spec: the Alignment model class
(apps.extractor.models.Alignment), whose constructor validates a raw
record, is not under src/ (only its importers are).  Per the spec,
building fails with a FormatError when a segment-id group of the record
is empty, and the certainty string is stored as-is: an absent or
unparsable certainty is never inspected, hence never fails, at build
time. -/
def AlignmentLink.build (sources targets : List String)
    (certainty : Option String) : Except FormatError AlignmentLink :=
  if sources = [] ∨ targets = [] then Except.error FormatError.emptyGroup
  else Except.ok ⟨sources, targets, certainty⟩

/-- Building the alignment index from raw records (the loop of
parse_alignment_trees over the link elements, with the group pairs and
certainty attribute already extracted): the first record with an empty
group makes the build fail. -/
def buildIndex :
    List (List String × List String × Option String) →
      Except FormatError (List AlignmentLink)
  | [] => Except.ok []
  | (s, t, c) :: rest =>
    match AlignmentLink.build s t c, buildIndex rest with
    | Except.ok a, Except.ok as => Except.ok (a :: as)
    | Except.error e, _ => Except.error e
    | Except.ok _, Except.error e => Except.error e

/-- Claim C9 (amended): building the index fails with a FormatError
exactly when some raw record has an empty segment-id group, whatever the
certainty values look like - a certainty is stored untouched, so an
absent or unparsable certainty never fails the build; an absent
certainty later counts as 0 in the aggregation (it is included, not
excluded); an unparsable certainty, however, makes the aggregation
itself fail (see the counterexample). -/
theorem c9_build_format_error
    (records : List (List String × List String × Option String)) :
    ((∀ r ∈ records, r.1 ≠ [] ∧ r.2.1 ≠ []) →
      buildIndex records =
        Except.ok (records.map (fun r => AlignmentLink.mk r.1 r.2.1 r.2.2))) ∧
    (∀ r ∈ records, (r.1 = [] ∨ r.2.1 = []) →
      buildIndex records = Except.error FormatError.emptyGroup) ∧
    (∀ (src tgt : List String), certaintyValue ⟨src, tgt, none⟩ = some 0) := by
  refine ⟨?_, ?_, fun src tgt => rfl⟩
  · intro h
    induction records with
    | nil => rfl
    | cons r rest ih =>
        obtain ⟨h1, h2⟩ := h r (List.mem_cons_self r rest)
        have hb : AlignmentLink.build r.1 r.2.1 r.2.2 =
            Except.ok ⟨r.1, r.2.1, r.2.2⟩ := by
          rw [AlignmentLink.build, if_neg]
          push_neg
          exact ⟨h1, h2⟩
        have ih2 := ih (fun x hx => h x (List.mem_cons_of_mem r hx))
        simp only [List.map_cons]
        rw [show (r :: rest) = ((r.1, r.2.1, r.2.2) :: rest) by rfl]
        rw [buildIndex]
        rw [show ((r.1, r.2.1, r.2.2) : List String × List String × Option String).1 = r.1 from rfl] at hb
        simp [hb, ih2]
  · intro r hr hempty
    induction records with
    | nil => exact absurd hr (List.not_mem_nil r)
    | cons x rest ih =>
        rcases List.mem_cons.mp hr with rfl | hx
        · have hb : AlignmentLink.build r.1 r.2.1 r.2.2 =
              Except.error FormatError.emptyGroup := by
            rw [AlignmentLink.build, if_pos hempty]
          rw [show (r :: rest) = ((r.1, r.2.1, r.2.2) :: rest) by rfl, buildIndex]
          cases hrest : buildIndex rest with
          | ok as => simp [hb, hrest]
          | error e => cases e; simp [hb, hrest]
        · have ih2 := ih hx
          rw [show (x :: rest) = ((x.1, x.2.1, x.2.2) :: rest) by rfl, buildIndex]
          cases hb : AlignmentLink.build x.1 x.2.1 x.2.2 with
          | ok a => simp [hb, ih2]
          | error e => cases e; simp [hb]

theorem c9_witness :
    buildIndex [(["1"], ["2"], some "abc")] =
      Except.ok [⟨["1"], ["2"], some "abc"⟩] :=
  (c9_build_format_error [(["1"], ["2"], some "abc")]).1 (by decide)

def c9bad : AlignmentLink := ⟨["1"], ["2"], some "abc"⟩

/-- Counterexample to claim C9 as stated: a record with the present but
unparsable certainty abc builds without error, but the certainty is not
excluded from aggregation as unknown: average_alignment_certainty
fails on it (float raises a ValueError), instead of returning the mean 0
over zero known certainties. -/
theorem c9_counterexample :
    buildIndex [(["1"], ["2"], some "abc")] = Except.ok [c9bad] ∧
    average_alignment_certainty [("nl", [c9bad])] = none ∧
    average_alignment_certainty [("nl", [c9bad])] ≠ some 0 := by
  have habc : pyFloatParts "abc" = none := by decide
  refine ⟨rfl, ?_, ?_⟩ <;>
    simp [average_alignment_certainty, sumLenCertainties, sumCertainties,
      certaintyValue, c9bad, pyFloat?, habc]
